import Mathlib

/-!
Shallow embedding of `src/socow-vector.h`: the small-object copy-on-write
vector `socow_vector<T, SMALL_SIZE>`.

Heap allocation is modelled by an explicit world holding every
`dynamic_storage` block ever allocated, indexed by allocation order; a block
that has been freed keeps its slot with `refs = 0` and no live elements.
A handle (`socow_vector` value) is either inline (the `_static_data` union
member, holding its live elements directly) or a reference into the world
(the `_dynamic_data` union member).  A heap handle's `_size` always equals
the number of live elements of its block: all handles sharing a block agree
on the size, because a block with more than one reference is never mutated
in place, and every path that creates a share (`operator=`) copies the
source's `_size` as well.  The live-element list of a block therefore both
stores the contents and determines the size.  `SMALL_SIZE` is the parameter
`N` below; the element type `T` is the type parameter `α`.
-/

namespace Socow

/-- `dynamic_storage`: `_capacity`, `_references`, and the live (constructed)
prefix of the trailing element array `_data`. -/
structure Buffer (α : Type) where
  cap : Nat
  refs : Nat
  elems : List α
deriving DecidableEq, Repr

/-- The heap: every block ever allocated, in allocation order.  Freed blocks
keep their slot with `refs = 0` and no elements. -/
structure World (α : Type) where
  bufs : List (Buffer α)
deriving DecidableEq, Repr

/-- Read block `i`; a never-allocated index reads as a dead block. -/
def World.getBuf (w : World α) (i : Nat) : Buffer α :=
  w.bufs.getD i ⟨0, 0, []⟩

def World.setBuf (w : World α) (i : Nat) (b : Buffer α) : World α :=
  ⟨w.bufs.set i b⟩

/-- `get_new_empty_storage` followed by filling in the copied elements
(the allocation step of `get_copied_storage`); the fresh block starts with
`_references == 1`.  Returns the new world and the block's index. -/
def World.alloc (w : World α) (cap : Nat) (es : List α) : World α × Nat :=
  (⟨w.bufs ++ [⟨cap, 1, es⟩]⟩, w.bufs.length)

/-- `operator delete` on block `i` after destroying its elements. -/
def World.free (w : World α) (i : Nat) : World α :=
  w.setBuf i ⟨(w.getBuf i).cap, 0, []⟩

/-- Static `dec_references(data, length)`: drop one reference; when the
count reaches zero the live elements are destroyed and the block freed. -/
def World.decRef (w : World α) (i : Nat) : World α :=
  if (w.getBuf i).refs ≤ 1 then w.free i
  else w.setBuf i ⟨(w.getBuf i).cap, (w.getBuf i).refs - 1, (w.getBuf i).elems⟩

/-- `inc_references()`. -/
def World.incRef (w : World α) (i : Nat) : World α :=
  w.setBuf i ⟨(w.getBuf i).cap, (w.getBuf i).refs + 1, (w.getBuf i).elems⟩

/-- Overwrite the live elements of block `i` (in-place mutation of an
exclusively owned block); capacity and reference count are untouched. -/
def World.setElems (w : World α) (i : Nat) (es : List α) : World α :=
  w.setBuf i ⟨(w.getBuf i).cap, (w.getBuf i).refs, es⟩

/-- A `socow_vector` handle: `_is_small` selects between the inline array
`_static_data` (carrying the live elements) and the block reference
`_dynamic_data`. -/
inductive SV (α : Type) where
  | small (xs : List α)
  | big (idx : Nat)
deriving DecidableEq, Repr

namespace SV

/-- Member `is_small()`. -/
def is_small : SV α → Bool
  | .small _ => true
  | .big _ => false

/-- The live elements seen through this handle (`data()[0 .. size)`). -/
def elems (w : World α) : SV α → List α
  | .small xs => xs
  | .big i => (w.getBuf i).elems

/-- Member `size()`. -/
def size (w : World α) (v : SV α) : Nat := (v.elems w).length

/-- Member `capacity()`. -/
def capacity (N : Nat) (w : World α) : SV α → Nat
  | .small _ => N
  | .big i => (w.getBuf i).cap

/-- The block's `references()` as read through this handle (only consulted
on heap handles in the source). -/
def refs (w : World α) : SV α → Nat
  | .small _ => 0
  | .big i => (w.getBuf i).refs

/-- Member `copied()`: heap-backed and shared. -/
def copied (w : World α) : SV α → Bool
  | .small _ => false
  | .big i => decide (1 < (w.getBuf i).refs)

/-- Member `dec_references()`: inline storage destroys its elements in place
(no heap effect), a heap handle drops one reference to its block. -/
def release (w : World α) : SV α → World α
  | .small _ => w
  | .big i => w.decRef i

end SV

/-- `get_copied_storage(from, size, capacity)`: a fresh exclusively owned
block of the requested capacity holding copies of the first `n` sources. -/
def get_copied_storage (w : World α) (src : List α) (n cap : Nat) :
    World α × Nat :=
  w.alloc cap (src.take n)

/-- `copy_on_write(capacity)`: build the copied block, release the current
storage, adopt the block. -/
def copy_on_write (w : World α) (v : SV α) (cap : Nat) : World α × SV α :=
  let p := get_copied_storage w (v.elems w) (v.size w) cap
  (v.release p.1, .big p.2)

/-- `check_cow()`: clone at the current capacity exactly when the block is
shared. -/
def check_cow (N : Nat) (w : World α) (v : SV α) : World α × SV α :=
  if v.copied w then copy_on_write w v (v.capacity N w) else (w, v)

/-- `push_back(value)`.  The growing branch builds
`socow_vector new_vector(*this, size(), capacity() * 2)`, pushes `value`
into that exclusively owned temporary and assigns the temporary to `*this`;
the temporary's reference is handed over, so the fresh block ends with
`refs = 1` and the old storage is released. -/
def push_back (N : Nat) (w : World α) (v : SV α) (x : α) : World α × SV α :=
  if v.size w = v.capacity N w ∨ v.copied w then
    let p := get_copied_storage w (v.elems w) (v.size w) (2 * v.capacity N w)
    (v.release (p.1.setElems p.2 ((p.1.getBuf p.2).elems ++ [x])), .big p.2)
  else
    match v with
    | .small xs => (w, .small (xs ++ [x]))
    | .big i => (w.setElems i ((w.getBuf i).elems ++ [x]), .big i)

/-- `pop_back()`.  When the block is shared,
`socow_vector new_vector(*this, size() - 1, capacity())` copies all but the
last element and is swapped in; the temporary then releases the old block.
The second component of the result counts element copy constructions. -/
def pop_back (N : Nat) (w : World α) (v : SV α) : World α × SV α × Nat :=
  if v.copied w then
    let p := get_copied_storage w (v.elems w) (v.size w - 1) (v.capacity N w)
    (v.release p.1, .big p.2, v.size w - 1)
  else
    match v with
    | .small xs => (w, .small xs.dropLast, 0)
    | .big i => (w.setElems i (w.getBuf i).elems.dropLast, .big i, 0)

/-- The counted `pop_back` loop used by `clear` and `erase`; accumulates the
element-copy count of the individual pops. -/
def popN (N : Nat) (w : World α) (v : SV α) : Nat → World α × SV α × Nat
  | 0 => (w, v, 0)
  | n + 1 =>
    let p := pop_back N w v
    let q := popN N p.1 p.2.1 n
    (q.1, q.2.1, p.2.2 + q.2.2)

/-- `clear()`: inline or exclusively owned storage pops every live element
in place; a shared block is released and the handle reset to the empty
inline representation.  The count is element copy constructions. -/
def clear (N : Nat) (w : World α) (v : SV α) : World α × SV α × Nat :=
  if v.is_small = true ∨ v.refs w = 1 then
    popN N w v (v.size w)
  else
    (v.release w, .small [], 0)

/-- `shrink_big_to_small()`: copy the live elements into the inline array,
then release the block. -/
def shrink_big_to_small (w : World α) (v : SV α) : World α × SV α :=
  match v with
  | .small xs => (w, .small xs)
  | .big i => (w.decRef i, .small (w.getBuf i).elems)

/-- `reserve(new_capacity)`, with the source's four guard clauses in
order. -/
def reserve (N : Nat) (w : World α) (v : SV α) (newCap : Nat) :
    World α × SV α :=
  if newCap < v.size w then (w, v)
  else if v.is_small = true ∧ newCap ≤ N then (w, v)
  else if v.is_small = false ∧ 1 < v.refs w ∧ newCap ≤ N then
    shrink_big_to_small w v
  else if v.is_small = true ∨ 1 < v.refs w ∨
      (v.refs w = 1 ∧ v.capacity N w < newCap) then
    copy_on_write w v newCap
  else (w, v)

/-- `shrink_to_fit()`. -/
def shrink_to_fit (N : Nat) (w : World α) (v : SV α) : World α × SV α :=
  if v.size w = v.capacity N w ∨ v.is_small = true then (w, v)
  else if v.size w ≤ N then shrink_big_to_small w v
  else copy_on_write w v (v.size w)

/-- `operator=(const socow_vector& other)` between two distinct handle
objects (the `this == &other` identity guard falls outside a value-level
model).  Small into small routes the new values through an inline temporary
(`tmp` never allocates: it reserves at most `min` of two inline sizes) and
ends with the live elements equal to `other`'s; heap into small copies into
the inline array and then releases the block; any `other` on the heap makes
`this` release its storage and take a fresh reference to `other`'s block.
The third component counts element copy constructions. -/
def assign (w : World α) : SV α → SV α → World α × SV α × Nat
  | .small xs, .small ys =>
    (w, .small ys, min xs.length ys.length + (ys.length - xs.length))
  | .big i, .small ys => (w.decRef i, .small ys, ys.length)
  | v, .big j => ((v.release w).incRef j, .big j, 0)

/-- `socow_vector(const socow_vector& other)`: default-construct the empty
inline handle, then `*this = other`. -/
def copyCtor (w : World α) (other : SV α) : World α × SV α × Nat :=
  assign w (.small []) other

/-- `std::swap((*this)[i], (*this)[j])` on the element list; out-of-range
indices leave the list unchanged (unreachable under the asserts). -/
def swapIdx (xs : List α) (i j : Nat) : List α :=
  match xs[i]?, xs[j]? with
  | some a, some b => (xs.set i b).set j a
  | some _, none => xs
  | none, some _ => xs
  | none, none => xs

/-- The bubbling loop of `insert`:
`for (i = size() - 1; i > diff; --i) swap((*this)[i], (*this)[i - 1])`. -/
def bubbleLoop (d : Nat) (xs : List α) (i : Nat) : List α :=
  if i ≤ d then xs else bubbleLoop d (swapIdx xs i (i - 1)) (i - 1)

/-- `insert(pos, value)` with `d = pos - begin()`.  The growing branch
builds a fresh `new_vector`, reserves `copied() ? capacity() + 1
: 2 * capacity()` — whenever the handle invariants hold (and `N > 0`) that
bound exceeds `SMALL_SIZE`, so the temporary moves to a heap block and its
subsequent push_backs never reallocate — fills it with the prefix, the
value and the suffix, and assigns it to `*this`.  Otherwise the value is
pushed at the end and bubbled into place by adjacent swaps. -/
def insert (N : Nat) (w : World α) (v : SV α) (d : Nat) (x : α) :
    World α × SV α :=
  if v.size w = v.capacity N w ∨ v.copied w then
    let newCap := if v.copied w then v.capacity N w + 1 else 2 * v.capacity N w
    if newCap ≤ N then
      (v.release w, .small ((v.elems w).take d ++ x :: (v.elems w).drop d))
    else
      let p := w.alloc newCap ((v.elems w).take d ++ x :: (v.elems w).drop d)
      (v.release p.1, .big p.2)
  else
    let p := push_back N w v x
    match p.2 with
    | .small xs => (p.1, .small (bubbleLoop d xs (xs.length - 1)))
    | .big i =>
      (p.1.setElems i
        (bubbleLoop d (p.1.getBuf i).elems ((p.1.getBuf i).elems.length - 1)),
       .big i)

/-- The shifting loop of `erase`:
`for (i = start; i < size() - range; ++i) swap((*this)[i], (*this)[i + range])`. -/
def shiftLoop (range stop : Nat) (xs : List α) (i : Nat) : List α :=
  if stop ≤ i then xs else shiftLoop range stop (swapIdx xs i (i + range)) (i + 1)
termination_by stop - i

/-- `erase(first, last)` with `start = first - begin()` and
`range = last - first`.  An empty range returns `data() + start` early —
and that `data()` is the non-const overload, so it runs `check_cow()`,
cloning a shared block even though no element is erased.  When the block is
shared, the survivors are pushed into a fresh `new_vector` reserved at
`capacity() - range` — the temporary stays inline when that bound fits in
`SMALL_SIZE` (and then, under the handle invariants, its pushes fit inline
too) and otherwise moves to a heap block — which is then swapped in and the
old block released by the temporary's destructor.  Otherwise the surviving
tail is shifted left by adjacent swaps and the last `range` slots popped.
On the non-empty paths the final `return data() + start` finds the handle
exclusive (fresh block, inline storage, or unshared in-place storage), so
its `check_cow()` does nothing further. -/
def erase (N : Nat) (w : World α) (v : SV α) (start range : Nat) :
    World α × SV α :=
  if range = 0 then check_cow N w v
  else if v.copied w then
    let survivors := (v.elems w).take start ++ (v.elems w).drop (start + range)
    if v.capacity N w - range ≤ N then
      (v.release w, .small survivors)
    else
      let p := w.alloc (v.capacity N w - range) survivors
      (v.release p.1, .big p.2)
  else
    let q :=
      match v with
      | .small xs =>
        (w, SV.small (shiftLoop range (xs.length - range) xs start))
      | .big i =>
        (w.setElems i
          (shiftLoop range ((w.getBuf i).elems.length - range)
            (w.getBuf i).elems start),
         SV.big i)
    let r := popN N q.1 q.2 range
    (r.1, r.2.1)

/-!
Exception model.  The element type's copy constructor may throw; a run is
parametrised by a budget `k`, meaning the `k`-th copy construction
(1-based, counted across one operation) throws.  `copyBudget k n` performs
`n` consecutive copies: it fails when `n ≥ k` and otherwise returns the
remaining budget.  An operation returns `none` in place of the updated
handle when the exception escapes to the caller; the returned world records
the catch-handler / destructor cleanup that ran during unwinding.
-/

def copyBudget (k n : Nat) : Option Nat :=
  if n < k then some (k - n) else none

/-- `get_copied_storage` with a throwing element copy: on failure the block
is deallocated in the catch handler (`uninitialized_copy_n` has already
destroyed the partially constructed prefix) and the failure propagates. -/
def get_copied_storageE (w : World α) (src : List α) (n cap k : Nat) :
    World α × Option (Nat × Nat) :=
  let p := w.alloc cap (src.take n)
  match copyBudget k n with
  | some kr => (p.1, some (p.2, kr))
  | none => (p.1.free p.2, none)

/-- `push_back` under a copy budget: the growing branch copies the `size()`
live elements and then the new value into the temporary; if either step
throws, the temporary's destructor unwinds its block and `*this` is
untouched.  The in-place branch performs a single copy into raw storage,
which on failure changes nothing. -/
def push_backE (N : Nat) (w : World α) (v : SV α) (x : α) (k : Nat) :
    World α × Option (SV α) :=
  if v.size w = v.capacity N w ∨ v.copied w then
    let p := get_copied_storageE w (v.elems w) (v.size w) (2 * v.capacity N w) k
    match p.2 with
    | none => (p.1, none)
    | some jk =>
      match copyBudget jk.2 1 with
      | none => (p.1.free jk.1, none)
      | some _ =>
        (v.release (p.1.setElems jk.1 ((p.1.getBuf jk.1).elems ++ [x])),
         some (.big jk.1))
  else
    match copyBudget k 1 with
    | none => (w, none)
    | some _ =>
      match v with
      | .small xs => (w, some (.small (xs ++ [x])))
      | .big i => (w.setElems i ((w.getBuf i).elems ++ [x]), some (.big i))

/-- `insert` under a copy budget.  The growing branch performs
`d + 1 + (size - d) = size + 1` copies into the temporary (`d ≤ size` at a
valid insertion point); whichever one throws, the temporary is destroyed —
unwinding its block when it had left the inline representation — and
`*this` is untouched.  The in-place branch copies once (`push_back`); the
subsequent bubbling swaps construct nothing. -/
def insertE (N : Nat) (w : World α) (v : SV α) (d : Nat) (x : α) (k : Nat) :
    World α × Option (SV α) :=
  if v.size w = v.capacity N w ∨ v.copied w then
    let newCap := if v.copied w then v.capacity N w + 1 else 2 * v.capacity N w
    if newCap ≤ N then
      match copyBudget k (v.size w + 1) with
      | none => (w, none)
      | some _ =>
        (v.release w,
         some (.small ((v.elems w).take d ++ x :: (v.elems w).drop d)))
    else
      let p := w.alloc newCap []
      match copyBudget k (v.size w + 1) with
      | none => (p.1.free p.2, none)
      | some _ =>
        (v.release
          (p.1.setElems p.2 ((v.elems w).take d ++ x :: (v.elems w).drop d)),
         some (.big p.2))
  else
    match copyBudget k 1 with
    | none => (w, none)
    | some _ =>
      let p := push_back N w v x
      match p.2 with
      | .small xs => (p.1, some (.small (bubbleLoop d xs (xs.length - 1))))
      | .big i =>
        (p.1.setElems i
          (bubbleLoop d (p.1.getBuf i).elems ((p.1.getBuf i).elems.length - 1)),
         some (.big i))

/-- `operator=` under a copy budget.  Small into small copies through the
inline temporary and the extension step, with `this` still holding its
original live prefix at every possible throw point; heap into small
restores `_dynamic_data` in the catch handler; sharing a heap block copies
nothing and cannot throw. -/
def assignE (w : World α) (k : Nat) : SV α → SV α → World α × Option (SV α)
  | .small xs, .small ys =>
    match copyBudget k (min xs.length ys.length + (ys.length - xs.length)) with
    | none => (w, none)
    | some _ => (w, some (.small ys))
  | .big i, .small ys =>
    match copyBudget k ys.length with
    | none => (w, none)
    | some _ => (w.decRef i, some (.small ys))
  | v, .big j => ((v.release w).incRef j, some (.big j))

/-!
Handle well-formedness: the representation invariants of the source.  An
inline handle holds at most `SMALL_SIZE` elements.  A heap handle points at
an allocated block that is still referenced, whose live prefix fits its
capacity and whose capacity strictly exceeds `SMALL_SIZE` (the private
constructor asserts `capacity > SMALL_SIZE`, and every path that allocates
maintains this).
-/

def WF (N : Nat) (w : World α) : SV α → Prop
  | .small xs => xs.length ≤ N
  | .big i =>
    i < w.bufs.length ∧ 1 ≤ (w.getBuf i).refs ∧
      (w.getBuf i).elems.length ≤ (w.getBuf i).cap ∧ N < (w.getBuf i).cap

instance instDecidableWF (N : Nat) (w : World α) (v : SV α) :
    Decidable (WF N w v) :=
  match v with
  | .small xs => inferInstanceAs (Decidable (xs.length ≤ N))
  | .big _ => inferInstanceAs (Decidable (_ ∧ _ ∧ _ ∧ _))

/-- Iterated `dropLast`, the shape left behind by a run of in-place
`pop_back`s. -/
def dropLastN : Nat → List α → List α
  | 0, xs => xs
  | n + 1, xs => dropLastN n xs.dropLast

/-! Basic world lemmas. -/

theorem World.length_setBuf (w : World α) (i : Nat) (b : Buffer α) :
    (w.setBuf i b).bufs.length = w.bufs.length := by
  simp [World.setBuf]

theorem World.getBuf_setBuf_self (w : World α) {i : Nat} (b : Buffer α)
    (h : i < w.bufs.length) : (w.setBuf i b).getBuf i = b := by
  simp [World.setBuf, World.getBuf, List.getD, List.getElem?_set_self h]

theorem World.getBuf_setBuf_ne (w : World α) {i j : Nat} (b : Buffer α)
    (h : i ≠ j) : (w.setBuf i b).getBuf j = w.getBuf j := by
  simp [World.setBuf, World.getBuf, List.getD, List.getElem?_set_ne h]

theorem World.getBuf_oob (w : World α) {i : Nat} (h : w.bufs.length ≤ i) :
    w.getBuf i = ⟨0, 0, []⟩ := by
  simp [World.getBuf, List.getD, List.getElem?_eq_none h]

theorem World.alloc_idx (w : World α) (cap : Nat) (es : List α) :
    (w.alloc cap es).2 = w.bufs.length := rfl

theorem World.length_alloc (w : World α) (cap : Nat) (es : List α) :
    ((w.alloc cap es).1).bufs.length = w.bufs.length + 1 := by
  simp [World.alloc]

theorem World.getBuf_alloc_lt (w : World α) {i : Nat} (cap : Nat)
    (es : List α) (h : i < w.bufs.length) :
    ((w.alloc cap es).1).getBuf i = w.getBuf i := by
  simp [World.alloc, World.getBuf, List.getD, List.getElem?_append_left h]

theorem World.getBuf_alloc_self (w : World α) (cap : Nat) (es : List α) :
    ((w.alloc cap es).1).getBuf w.bufs.length = ⟨cap, 1, es⟩ := by
  simp [World.alloc, World.getBuf, List.getD,
    List.getElem?_append_right (Nat.le_refl _)]

theorem World.length_setElems (w : World α) (i : Nat) (es : List α) :
    (w.setElems i es).bufs.length = w.bufs.length :=
  w.length_setBuf _ _

theorem World.getBuf_setElems_self (w : World α) {i : Nat} (es : List α)
    (h : i < w.bufs.length) :
    (w.setElems i es).getBuf i =
      ⟨(w.getBuf i).cap, (w.getBuf i).refs, es⟩ :=
  w.getBuf_setBuf_self _ h

theorem World.getBuf_setElems_ne (w : World α) {i j : Nat} (es : List α)
    (h : i ≠ j) : (w.setElems i es).getBuf j = w.getBuf j :=
  w.getBuf_setBuf_ne _ h

theorem World.length_incRef (w : World α) (i : Nat) :
    (w.incRef i).bufs.length = w.bufs.length :=
  w.length_setBuf _ _

theorem World.getBuf_incRef_self (w : World α) {i : Nat}
    (h : i < w.bufs.length) :
    (w.incRef i).getBuf i =
      ⟨(w.getBuf i).cap, (w.getBuf i).refs + 1, (w.getBuf i).elems⟩ :=
  w.getBuf_setBuf_self _ h

theorem World.getBuf_incRef_ne (w : World α) {i j : Nat} (h : i ≠ j) :
    (w.incRef i).getBuf j = w.getBuf j :=
  w.getBuf_setBuf_ne _ h

theorem World.length_free (w : World α) (i : Nat) :
    (w.free i).bufs.length = w.bufs.length :=
  w.length_setBuf _ _

theorem World.getBuf_free_self (w : World α) {i : Nat}
    (h : i < w.bufs.length) :
    (w.free i).getBuf i = ⟨(w.getBuf i).cap, 0, []⟩ :=
  w.getBuf_setBuf_self _ h

theorem World.getBuf_free_ne (w : World α) {i j : Nat} (h : i ≠ j) :
    (w.free i).getBuf j = w.getBuf j :=
  w.getBuf_setBuf_ne _ h

theorem World.length_decRef (w : World α) (i : Nat) :
    (w.decRef i).bufs.length = w.bufs.length := by
  unfold World.decRef
  split
  · exact w.length_free _
  · exact w.length_setBuf _ _

theorem World.getBuf_decRef_ne (w : World α) {i j : Nat} (h : i ≠ j) :
    (w.decRef i).getBuf j = w.getBuf j := by
  unfold World.decRef
  split
  · exact w.getBuf_free_ne h
  · exact w.getBuf_setBuf_ne _ h

/-- Dropping one of at least two references keeps the block's capacity and
live elements: this is exactly why a sharer is unaffected when another
handle detaches. -/
theorem World.getBuf_decRef_shared (w : World α) {i : Nat}
    (hi : i < w.bufs.length) (h2 : 2 ≤ (w.getBuf i).refs) :
    (w.decRef i).getBuf i =
      ⟨(w.getBuf i).cap, (w.getBuf i).refs - 1, (w.getBuf i).elems⟩ := by
  unfold World.decRef
  split
  · omega
  · exact w.getBuf_setBuf_self _ hi

/-- Releasing a heap handle never touches a different block. -/
theorem SV.release_getBuf_ne (w : World α) (v : SV α) {j : Nat}
    (h : ∀ i, v = SV.big i → i ≠ j) :
    (v.release w).getBuf j = w.getBuf j := by
  cases v with
  | small xs => rfl
  | big i => exact w.getBuf_decRef_ne (h i rfl)

theorem SV.length_release (w : World α) (v : SV α) :
    (v.release w).bufs.length = w.bufs.length := by
  cases v with
  | small xs => rfl
  | big i => exact w.length_decRef i

theorem World.setBuf_setBuf (w : World α) (i : Nat) (b b2 : Buffer α) :
    (w.setBuf i b).setBuf i b2 = w.setBuf i b2 := by
  simp [World.setBuf, List.set_set]

theorem World.setBuf_getBuf_self (w : World α) {i : Nat}
    (h : i < w.bufs.length) : w.setBuf i (w.getBuf i) = w := by
  cases w with
  | mk bufs =>
    simp only [World.setBuf, World.getBuf]
    congr 1
    apply List.ext_getElem?
    intro j
    by_cases hj : i = j
    · subst hj
      simp [List.getElem?_set_self h, List.getD_eq_getElem _ _ h,
        List.getElem?_eq_getElem h]
    · simp [List.getElem?_set_ne hj]

theorem World.setElems_setElems (w : World α) {i : Nat} (es es2 : List α)
    (hi : i < w.bufs.length) :
    (w.setElems i es).setElems i es2 = w.setElems i es2 := by
  unfold World.setElems
  rw [w.getBuf_setBuf_self _ hi, w.setBuf_setBuf]

theorem World.setElems_self (w : World α) {i : Nat}
    (hi : i < w.bufs.length) : w.setElems i (w.getBuf i).elems = w := by
  unfold World.setElems
  exact w.setBuf_getBuf_self hi

/-! Behaviour of `pop_back` runs on unshared storage. -/

theorem pop_back_small (N : Nat) (w : World α) (xs : List α) :
    pop_back N w (.small xs) = (w, .small xs.dropLast, 0) := by
  simp [pop_back, SV.copied]

theorem pop_back_big_own (N : Nat) (w : World α) {i : Nat}
    (h : (w.getBuf i).refs ≤ 1) :
    pop_back N w (.big i) =
      (w.setElems i (w.getBuf i).elems.dropLast, .big i, 0) := by
  simp [pop_back, SV.copied, Nat.not_lt.mpr h]

theorem popN_small (N : Nat) (w : World α) (xs : List α) (n : Nat) :
    popN N w (.small xs) n = (w, .small (dropLastN n xs), 0) := by
  induction n generalizing xs with
  | zero => rfl
  | succ n ih => simp [popN, pop_back_small, ih, dropLastN]

theorem popN_big (N : Nat) (w : World α) {i : Nat} (hi : i < w.bufs.length)
    (h : (w.getBuf i).refs ≤ 1) (n : Nat) :
    popN N w (.big i) n =
      (w.setElems i (dropLastN n (w.getBuf i).elems), .big i, 0) := by
  induction n generalizing w with
  | zero =>
    simp [popN, dropLastN, w.setElems_self hi]
  | succ n ih =>
    have hlen : i < (w.setElems i (w.getBuf i).elems.dropLast).bufs.length := by
      rw [w.length_setElems]; exact hi
    have hrefs :
        ((w.setElems i (w.getBuf i).elems.dropLast).getBuf i).refs ≤ 1 := by
      rw [w.getBuf_setElems_self _ hi]; exact h
    simp only [popN, pop_back_big_own N w h]
    rw [ih _ hlen hrefs]
    rw [w.getBuf_setElems_self _ hi]
    rw [w.setElems_setElems _ _ hi]
    rfl

theorem dropLastN_full : ∀ (n : Nat) (xs : List α), xs.length = n →
    dropLastN n xs = []
  | 0, xs, h => by cases xs <;> simp_all [dropLastN]
  | n + 1, xs, h => by
    have : xs.dropLast.length = n := by simp [List.length_dropLast, h]
    simpa [dropLastN] using dropLastN_full n xs.dropLast this

theorem dropLastN_length_le (n : Nat) (xs : List α) :
    (dropLastN n xs).length ≤ xs.length := by
  induction n generalizing xs with
  | zero => simp [dropLastN]
  | succ n ih =>
    calc (dropLastN n xs.dropLast).length ≤ xs.dropLast.length := ih _
    _ ≤ xs.length := by simp [List.length_dropLast]

theorem World.setBuf_oob (w : World α) {i : Nat} (b : Buffer α)
    (h : w.bufs.length ≤ i) : w.setBuf i b = w := by
  cases w with
  | mk bufs => simp [World.setBuf, List.set_eq_of_length_le h]

theorem World.setElems_alloc (w : World α) (cap : Nat) (es es2 : List α) :
    ((w.alloc cap es).1).setElems w.bufs.length es2 = (w.alloc cap es2).1 := by
  unfold World.setElems
  rw [World.getBuf_alloc_self]
  simp [World.alloc, World.setBuf,
    List.set_append_right _ _ (Nat.le_refl w.bufs.length)]

/-- The net effect of `push_back`'s growing branch: one fresh block of
double the capacity holding the old elements plus the value, the old
storage released. -/
theorem push_back_grow (N : Nat) (w : World α) (v : SV α) (x : α)
    (hg : SV.size w v = SV.capacity N w v ∨ SV.copied w v = true) :
    push_back N w v x =
      (v.release ((w.alloc (2 * SV.capacity N w v) (SV.elems w v ++ [x])).1),
       .big w.bufs.length) := by
  unfold push_back
  rw [if_pos hg]
  simp only [get_copied_storage, World.alloc_idx, World.getBuf_alloc_self,
    SV.size, List.take_length, World.setElems_alloc]

/-- Heap handles stay in bounds under well-formedness. -/
theorem WF.big_lt {N : Nat} {w : World α} {v : SV α} (hWF : WF N w v) :
    ∀ i, v = SV.big i → i < w.bufs.length := by
  intro i hv
  subst hv
  exact hWF.1

theorem copy_on_write_eq (w : World α) (v : SV α) (cap : Nat) :
    copy_on_write w v cap =
      (v.release ((w.alloc cap (SV.elems w v)).1), .big w.bufs.length) := by
  unfold copy_on_write get_copied_storage
  simp only [SV.size, List.take_length, World.alloc_idx]

theorem copy_on_write_getBuf (N : Nat) (w : World α) (v : SV α) (cap : Nat)
    (hWF : WF N w v) :
    ((copy_on_write w v cap).1).getBuf w.bufs.length =
      ⟨cap, 1, SV.elems w v⟩ := by
  rw [copy_on_write_eq]
  rw [SV.release_getBuf_ne _ _ (fun i hv => Nat.ne_of_lt (hWF.big_lt i hv))]
  exact World.getBuf_alloc_self _ _ _

theorem WF_copy_on_write (N : Nat) (w : World α) (v : SV α) (cap : Nat)
    (hWF : WF N w v) (hsz : SV.size w v ≤ cap) (hN : N < cap) :
    WF N (copy_on_write w v cap).1 (copy_on_write w v cap).2 := by
  have hb := copy_on_write_getBuf N w v cap hWF
  have h2 : (copy_on_write w v cap).2 = SV.big w.bufs.length := by
    rw [copy_on_write_eq]
  rw [h2]
  refine ⟨?_, ?_, ?_, ?_⟩
  · have : ((copy_on_write w v cap).1).bufs.length = w.bufs.length + 1 := by
      rw [copy_on_write_eq]
      rw [SV.length_release, World.length_alloc]
    omega
  · rw [hb]
  · rw [hb]; exact hsz
  · rw [hb]; exact hN

/-- `reserve` preserves well-formedness: in particular every heap block it
creates has capacity strictly above `SMALL_SIZE`. -/
theorem WF_reserve (N : Nat) (w : World α) (v : SV α) (newCap : Nat)
    (hWF : WF N w v) :
    WF N (reserve N w v newCap).1 (reserve N w v newCap).2 := by
  unfold reserve
  split
  next h1 => exact hWF
  next h1 =>
    split
    next h2 => exact hWF
    next h2 =>
      split
      next h3 =>
        cases v with
        | small xs => simp [SV.is_small] at h3
        | big i =>
          show WF N (w.decRef i) (.small (w.getBuf i).elems)
          show (w.getBuf i).elems.length ≤ N
          have hsz : SV.size w (.big i) ≤ newCap := Nat.le_of_not_lt h1
          have : SV.size w (.big i) = (w.getBuf i).elems.length := rfl
          omega
      next h3 =>
        split
        next h4 =>
          have hsz : SV.size w v ≤ newCap := Nat.le_of_not_lt h1
          have hN : N < newCap := by
            rcases h4 with h4 | h4 | h4
            · exact Nat.lt_of_not_le fun hle => h2 ⟨h4, hle⟩
            · cases v with
              | small xs => simp [SV.refs] at h4
              | big i =>
                refine Nat.lt_of_not_le fun hle => h3 ⟨rfl, h4, hle⟩
            · cases v with
              | small xs => simp [SV.refs] at h4
              | big i =>
                have : N < SV.capacity N w (.big i) := hWF.2.2.2
                omega
          exact WF_copy_on_write N w v newCap hWF hsz hN
        next h4 => exact hWF

/-- `reserve` never changes the element sequence seen through the handle
(and hence not the size either). -/
theorem elems_reserve (N : Nat) (w : World α) (v : SV α) (newCap : Nat)
    (hWF : WF N w v) :
    SV.elems (reserve N w v newCap).1 (reserve N w v newCap).2 =
      SV.elems w v := by
  unfold reserve
  split
  next h1 => rfl
  next h1 =>
    split
    next h2 => rfl
    next h2 =>
      split
      next h3 =>
        cases v with
        | small xs => simp [SV.is_small] at h3
        | big i => rfl
      next h3 =>
        split
        next h4 =>
          have hb := copy_on_write_getBuf N w v newCap hWF
          have h5 : (copy_on_write w v newCap).2 = SV.big w.bufs.length := by
            rw [copy_on_write_eq]
          rw [h5]
          show (((copy_on_write w v newCap).1).getBuf w.bufs.length).elems = _
          rw [hb]
        next h4 => rfl

/-! Claim theorems. -/

/-- C2: copy-constructing handle B from a heap-backed handle A makes B
reference A's block, increases that block's reference count by one, leaves
A's elements as they were (so B and A report equal sizes and elements
through the shared block), and invokes no element copy constructor. -/
theorem c2_copy_construction_shares_heap_buffer (w : World α) (j : Nat)
    (hj : j < w.bufs.length) :
    (copyCtor w (.big j)).2.1 = SV.big j ∧
    (((copyCtor w (.big j)).1).getBuf j).refs = (w.getBuf j).refs + 1 ∧
    SV.elems (copyCtor w (.big j)).1 (SV.big j) = SV.elems w (.big j) ∧
    SV.size (copyCtor w (.big j)).1 (SV.big j) = SV.size w (.big j) ∧
    (copyCtor w (.big j)).2.2 = 0 := by
  have hw : copyCtor w (.big j) = (w.incRef j, .big j, 0) := rfl
  refine ⟨rfl, ?_, ?_, ?_, rfl⟩
  · rw [hw, w.getBuf_incRef_self hj]
  · show SV.elems (w.incRef j) (SV.big j) = _
    simp [SV.elems, w.getBuf_incRef_self hj]
  · show SV.size (w.incRef j) (SV.big j) = _
    simp [SV.size, SV.elems, w.getBuf_incRef_self hj]

theorem c2_witness :
    (copyCtor (⟨[⟨3, 1, [5, 6]⟩]⟩ : World Nat) (.big 0)).2.1 = SV.big 0 ∧
    (((copyCtor (⟨[⟨3, 1, [5, 6]⟩]⟩ : World Nat) (.big 0)).1).getBuf 0).refs =
      ((⟨[⟨3, 1, [5, 6]⟩]⟩ : World Nat).getBuf 0).refs + 1 ∧
    SV.elems (copyCtor (⟨[⟨3, 1, [5, 6]⟩]⟩ : World Nat) (.big 0)).1
        (SV.big 0) =
      SV.elems (⟨[⟨3, 1, [5, 6]⟩]⟩ : World Nat) (.big 0) ∧
    SV.size (copyCtor (⟨[⟨3, 1, [5, 6]⟩]⟩ : World Nat) (.big 0)).1
        (SV.big 0) =
      SV.size (⟨[⟨3, 1, [5, 6]⟩]⟩ : World Nat) (.big 0) ∧
    (copyCtor (⟨[⟨3, 1, [5, 6]⟩]⟩ : World Nat) (.big 0)).2.2 = 0 :=
  c2_copy_construction_shares_heap_buffer _ 0 (by decide)

/-- Swapping the two elements around the seam of `l ++ a :: x :: r`. -/
theorem swapIdx_mid (l r : List α) (a x : α) :
    swapIdx (l ++ a :: x :: r) (l.length + 1) l.length = l ++ x :: a :: r := by
  unfold swapIdx
  rw [List.getElem?_append_right (by omega : l.length ≤ l.length + 1)]
  rw [List.getElem?_append_right (Nat.le_refl l.length)]
  simp only [Nat.add_sub_cancel_left, Nat.sub_self, List.getElem?_cons_succ,
    List.getElem?_cons_zero]
  rw [List.set_append_right _ _ (by omega : l.length ≤ l.length + 1)]
  rw [List.set_append_right _ _ (Nat.le_refl l.length)]
  simp

/-- One bubbling swap moves the inserted element one slot to the left. -/
theorem bubbleLoop_step (xs : List α) (x : α) (j : Nat) (hj : j < xs.length) :
    swapIdx (xs.take (j + 1) ++ x :: xs.drop (j + 1)) (j + 1) j =
      xs.take j ++ x :: xs.drop j := by
  have hjle : j ≤ xs.length := Nat.le_of_lt hj
  have ht : xs.take (j + 1) = xs.take j ++ [xs[j]] := by
    rw [List.take_succ, List.getElem?_eq_getElem hj]
    rfl
  have hl : (xs.take j).length = j := by
    simp [List.length_take, Nat.min_eq_left hjle]
  have hd : xs.drop j = xs[j] :: xs.drop (j + 1) := List.drop_eq_getElem_cons hj
  have hlist : xs.take (j + 1) ++ x :: xs.drop (j + 1) =
      xs.take j ++ xs[j] :: x :: xs.drop (j + 1) := by
    rw [ht, List.append_assoc]
    rfl
  calc swapIdx (xs.take (j + 1) ++ x :: xs.drop (j + 1)) (j + 1) j
      = swapIdx (xs.take j ++ xs[j] :: x :: xs.drop (j + 1))
          ((xs.take j).length + 1) (xs.take j).length := by
        rw [hlist, hl]
    _ = xs.take j ++ x :: xs[j] :: xs.drop (j + 1) := swapIdx_mid _ _ _ _
    _ = xs.take j ++ x :: xs.drop j := by rw [hd]

/-- The bubbling loop of `insert`, started just after `push_back`, drags the
appended element down to position `d`, leaving the other elements in
order. -/
theorem bubbleLoop_insert (x : α) (d : Nat) :
    ∀ (i : Nat) (xs : List α), d ≤ i → i ≤ xs.length →
      bubbleLoop d (xs.take i ++ x :: xs.drop i) i =
        xs.take d ++ x :: xs.drop d := by
  intro i
  induction i with
  | zero =>
    intro xs hd hlen
    have hd0 : d = 0 := Nat.le_zero.mp hd
    subst hd0
    rw [bubbleLoop]
    simp
  | succ j ih =>
    intro xs hd hlen
    by_cases hdj : j + 1 ≤ d
    · have hde : d = j + 1 := Nat.le_antisymm hd hdj
      subst hde
      rw [bubbleLoop]
      simp
    · have hd2 : d ≤ j := by omega
      have hj : j < xs.length := by omega
      rw [bubbleLoop, if_neg hdj, Nat.add_sub_cancel,
        bubbleLoop_step xs x j hj]
      exact ih xs hd2 (Nat.le_of_lt hj)

theorem length_insertAt (xs : List α) (x : α) (d : Nat) (hd : d ≤ xs.length) :
    (xs.take d ++ x :: xs.drop d).length = xs.length + 1 := by
  simp only [List.length_append, List.length_cons, List.length_take,
    List.length_drop]
  omega

/-- The net effect of `insert`'s growing branch when the reserved bound
exceeds `SMALL_SIZE`: one fresh block at that bound holding prefix, value
and suffix, the old storage released. -/
theorem insert_grow (N : Nat) (w : World α) (v : SV α) (d : Nat) (x : α)
    (hg : SV.size w v = SV.capacity N w v ∨ SV.copied w v = true)
    (hncap : ¬((if SV.copied w v = true then SV.capacity N w v + 1
        else 2 * SV.capacity N w v) ≤ N)) :
    insert N w v d x =
      (v.release ((w.alloc
          (if SV.copied w v = true then SV.capacity N w v + 1
           else 2 * SV.capacity N w v)
          ((SV.elems w v).take d ++ x :: (SV.elems w v).drop d)).1),
       .big w.bufs.length) := by
  unfold insert
  simp only [if_pos hg, if_neg hncap, World.alloc_idx]

/-- Statement of claim C9 at parameters `N w v d x`: `insert` always yields
prefix, value, suffix; the growing branch adopts a fresh block of capacity
`capacity + 1` when the old block was shared and `2 * capacity` otherwise,
and the in-place branch (append then adjacent swaps) keeps representation
and capacity. -/
def insertClaim (N : Nat) (w : World α) (v : SV α) (d : Nat) (x : α) : Prop :=
  SV.elems (insert N w v d x).1 (insert N w v d x).2 =
    (SV.elems w v).take d ++ x :: (SV.elems w v).drop d ∧
  SV.size (insert N w v d x).1 (insert N w v d x).2 = SV.size w v + 1 ∧
  ((SV.size w v = SV.capacity N w v ∨ SV.copied w v = true) →
    (insert N w v d x).2 = SV.big w.bufs.length ∧
    SV.capacity N (insert N w v d x).1 (insert N w v d x).2 =
      (if SV.copied w v = true then SV.capacity N w v + 1
       else 2 * SV.capacity N w v) ∧
    (((insert N w v d x).1).getBuf w.bufs.length).refs = 1) ∧
  (¬(SV.size w v = SV.capacity N w v ∨ SV.copied w v = true) →
    ((insert N w v d x).2).is_small = v.is_small ∧
    SV.capacity N (insert N w v d x).1 (insert N w v d x).2 =
      SV.capacity N w v)

/-- C9: at full capacity or on a shared block, `insert` builds a fresh
block of capacity exactly `capacity + 1` (shared) or `2 * capacity`
(otherwise) holding the prefix, the value and the suffix; with room and
exclusive ownership it appends the value and bubbles it into place by
adjacent swaps, preserving the order of the other elements together with
the representation and capacity. -/
theorem c9_insert_sizing_and_contents (N : Nat) (w : World α) (v : SV α)
    (d : Nat) (x : α) (hN : 0 < N) (hWF : WF N w v)
    (hd : d ≤ SV.size w v) : insertClaim N w v d x := by
  by_cases hg : SV.size w v = SV.capacity N w v ∨ SV.copied w v = true
  · have hNcap : N < (if SV.copied w v = true then SV.capacity N w v + 1
        else 2 * SV.capacity N w v) := by
      cases v with
      | small xs =>
        have hc : SV.copied w (.small xs) = false := rfl
        rw [hc]
        have : SV.capacity N w (SV.small xs : SV α) = N := rfl
        simp only [Bool.false_eq_true, if_false]
        omega
      | big i =>
        have hcap : N < (w.getBuf i).cap := hWF.2.2.2
        have : SV.capacity N w (SV.big i : SV α) = (w.getBuf i).cap := rfl
        split <;> omega
    have hin := insert_grow N w v d x hg (Nat.not_le.mpr hNcap)
    have h2 : (insert N w v d x).2 = SV.big w.bufs.length := by rw [hin]
    have hb : ((insert N w v d x).1).getBuf w.bufs.length =
        ⟨(if SV.copied w v = true then SV.capacity N w v + 1
          else 2 * SV.capacity N w v), 1,
         (SV.elems w v).take d ++ x :: (SV.elems w v).drop d⟩ := by
      rw [hin]
      rw [SV.release_getBuf_ne _ _ (fun i hv => Nat.ne_of_lt (hWF.big_lt i hv))]
      exact World.getBuf_alloc_self _ _ _
    refine ⟨?_, ?_, fun _ => ⟨h2, ?_, ?_⟩, fun hn => absurd hg hn⟩
    · rw [h2]
      simp only [SV.elems]
      rw [hb]
      rfl
    · rw [h2]
      simp only [SV.size, SV.elems]
      rw [hb]
      exact length_insertAt _ _ _ hd
    · rw [h2]
      simp only [SV.capacity]
      rw [hb]
      rfl
    · rw [hb]
  · cases v with
    | small xs =>
      have hpb : push_back N w (.small xs) x = (w, .small (xs ++ [x])) := by
        unfold push_back
        rw [if_neg hg]
      have hin : insert N w (.small xs) d x =
          (w, .small (bubbleLoop d (xs ++ [x]) ((xs ++ [x]).length - 1))) := by
        unfold insert
        rw [if_neg hg, hpb]
      have hlen : (xs ++ [x]).length - 1 = xs.length := by simp
      have hfold : xs ++ [x] = xs.take xs.length ++ x :: xs.drop xs.length := by
        simp
      have hbub : bubbleLoop d (xs ++ [x]) ((xs ++ [x]).length - 1) =
          xs.take d ++ x :: xs.drop d := by
        rw [hlen, hfold]
        exact bubbleLoop_insert x d xs.length xs hd (Nat.le_refl _)
      unfold insertClaim
      rw [hin, hbub]
      refine ⟨rfl, ?_, fun h => absurd h hg, fun _ => ⟨rfl, rfl⟩⟩
      exact length_insertAt _ _ _ hd
    | big i =>
      have hi : i < w.bufs.length := hWF.1
      have hpb : push_back N w (.big i) x =
          (w.setElems i ((w.getBuf i).elems ++ [x]), .big i) := by
        unfold push_back
        rw [if_neg hg]
      have hg1 : ((w.setElems i ((w.getBuf i).elems ++ [x])).getBuf i).elems =
          (w.getBuf i).elems ++ [x] := by
        rw [w.getBuf_setElems_self _ hi]
      have hin : insert N w (.big i) d x =
          ((w.setElems i ((w.getBuf i).elems ++ [x])).setElems i
            (bubbleLoop d ((w.getBuf i).elems ++ [x])
              (((w.getBuf i).elems ++ [x]).length - 1)),
           .big i) := by
        unfold insert
        rw [if_neg hg, hpb]
        simp only [hg1]
      have hlen : ((w.getBuf i).elems ++ [x]).length - 1 =
          (w.getBuf i).elems.length := by simp
      have hfold : (w.getBuf i).elems ++ [x] =
          (w.getBuf i).elems.take (w.getBuf i).elems.length ++
            x :: (w.getBuf i).elems.drop (w.getBuf i).elems.length := by
        simp
      have hbub : bubbleLoop d ((w.getBuf i).elems ++ [x])
          (((w.getBuf i).elems ++ [x]).length - 1) =
          (w.getBuf i).elems.take d ++ x :: (w.getBuf i).elems.drop d := by
        rw [hlen, hfold]
        exact bubbleLoop_insert x d (w.getBuf i).elems.length _ hd (Nat.le_refl _)
      unfold insertClaim
      rw [hin, hbub, w.setElems_setElems _ _ hi]
      have hgb : ((w.setElems i
          ((w.getBuf i).elems.take d ++ x :: (w.getBuf i).elems.drop d)).getBuf
            i) = ⟨(w.getBuf i).cap, (w.getBuf i).refs,
          (w.getBuf i).elems.take d ++ x :: (w.getBuf i).elems.drop d⟩ :=
        w.getBuf_setElems_self _ hi
      refine ⟨?_, ?_, fun h => absurd h hg, fun _ => ⟨rfl, ?_⟩⟩
      · simp only [SV.elems]
        rw [hgb]
      · simp only [SV.size, SV.elems]
        rw [hgb]
        exact length_insertAt _ _ _ hd
      · simp only [SV.capacity]
        rw [hgb]

theorem c9_witness : insertClaim 2 (⟨[⟨3, 2, [4, 5, 6]⟩]⟩ : World Nat)
    (.big 0) 1 9 :=
  c9_insert_sizing_and_contents 2 _ _ 1 9 (by decide) (by decide) (by decide)

/-- What `shrink_to_fit` guarantees on any well-formed handle: a size that
fits inline ends inline at capacity `N`; a larger size ends at capacity
exactly the size. -/
theorem shrink_to_fit_post (N : Nat) (w : World α) (v : SV α)
    (hWF : WF N w v) :
    (SV.size w v ≤ N →
      ((shrink_to_fit N w v).2).is_small = true ∧
      SV.capacity N (shrink_to_fit N w v).1 (shrink_to_fit N w v).2 = N) ∧
    (N < SV.size w v →
      SV.capacity N (shrink_to_fit N w v).1 (shrink_to_fit N w v).2 =
        SV.size w v) := by
  unfold shrink_to_fit
  split
  next h1 =>
    constructor
    · intro hle
      cases v with
      | small xs => exact ⟨rfl, rfl⟩
      | big i =>
        rcases h1 with h1 | h1
        · have hcap : N < (w.getBuf i).cap := hWF.2.2.2
          have hsz : SV.size w (.big i) = (w.getBuf i).cap := h1
          omega
        · simp [SV.is_small] at h1
    · intro hgt
      cases v with
      | small xs =>
        have hW : xs.length ≤ N := hWF
        have hsz : SV.size w (.small xs) = xs.length := rfl
        omega
      | big i =>
        rcases h1 with h1 | h1
        · exact h1.symm
        · simp [SV.is_small] at h1
  next h1 =>
    split
    next h2 =>
      constructor
      · intro hle
        cases v with
        | small xs => exact absurd (Or.inr rfl) h1
        | big i => exact ⟨rfl, rfl⟩
      · intro hgt
        omega
    next h2 =>
      constructor
      · intro hle
        omega
      · intro hgt
        have hb := copy_on_write_getBuf N w v (SV.size w v) hWF
        have h5 : (copy_on_write w v (SV.size w v)).2 =
            SV.big w.bufs.length := by
          rw [copy_on_write_eq]
        rw [h5]
        show (((copy_on_write w v (SV.size w v)).1).getBuf w.bufs.length).cap = _
        rw [hb]

/-- Statement of claim C8 at parameters `N w v k`. -/
def roundTripClaim (N : Nat) (w : World α) (v : SV α) (k : Nat) : Prop :=
  (SV.size w v ≤ N →
    ((shrink_to_fit N (reserve N w v k).1 (reserve N w v k).2).2).is_small
      = true ∧
    SV.capacity N (shrink_to_fit N (reserve N w v k).1 (reserve N w v k).2).1
      (shrink_to_fit N (reserve N w v k).1 (reserve N w v k).2).2 = N) ∧
  (N < SV.size w v →
    SV.capacity N (shrink_to_fit N (reserve N w v k).1 (reserve N w v k).2).1
      (shrink_to_fit N (reserve N w v k).1 (reserve N w v k).2).2 =
      SV.size w v)

/-- C8: for every well-formed handle and every `k`, `reserve(k)` followed by
`shrink_to_fit()` ends inline with capacity `N` when the size fits inline,
and at capacity exactly the size otherwise. -/
theorem c8_reserve_shrink_round_trip (N : Nat) (w : World α) (v : SV α)
    (k : Nat) (hWF : WF N w v) : roundTripClaim N w v k := by
  have hWF1 := WF_reserve N w v k hWF
  have hsz : SV.size (reserve N w v k).1 (reserve N w v k).2 = SV.size w v := by
    unfold SV.size
    rw [elems_reserve N w v k hWF]
  have hpost := shrink_to_fit_post N (reserve N w v k).1 (reserve N w v k).2 hWF1
  rw [hsz] at hpost
  exact hpost

theorem c8_witness : roundTripClaim 2 (⟨[]⟩ : World Nat) (.small [7]) 5 :=
  c8_reserve_shrink_round_trip 2 _ _ 5 (by decide)

/-- Statement of claim C3 at parameters `N w v x`: the result of
`push_back` is always the old elements with `x` appended; at capacity or on
a shared block a fresh exclusively owned block of exactly twice the old
capacity is adopted, and otherwise the representation and capacity are
kept. -/
def pushBackClaim (N : Nat) (w : World α) (v : SV α) (x : α) : Prop :=
  SV.elems (push_back N w v x).1 (push_back N w v x).2 = SV.elems w v ++ [x] ∧
  SV.size (push_back N w v x).1 (push_back N w v x).2 = SV.size w v + 1 ∧
  ((SV.size w v = SV.capacity N w v ∨ SV.copied w v = true) →
    (push_back N w v x).2 = SV.big w.bufs.length ∧
    SV.capacity N (push_back N w v x).1 (push_back N w v x).2 =
      2 * SV.capacity N w v ∧
    (((push_back N w v x).1).getBuf w.bufs.length).refs = 1) ∧
  (¬(SV.size w v = SV.capacity N w v ∨ SV.copied w v = true) →
    ((push_back N w v x).2).is_small = v.is_small ∧
    SV.capacity N (push_back N w v x).1 (push_back N w v x).2 =
      SV.capacity N w v)

/-- C3: `push_back` appends `x` to the element sequence; when the handle is
at full capacity or its block is shared, it adopts a fresh block of
capacity exactly twice the old capacity, and otherwise it constructs `x` in
place, preserving representation and capacity. -/
theorem c3_push_back_grows_or_appends (N : Nat) (w : World α) (v : SV α)
    (x : α) (hWF : WF N w v) : pushBackClaim N w v x := by
  by_cases hg : SV.size w v = SV.capacity N w v ∨ SV.copied w v = true
  · have hpb := push_back_grow N w v x hg
    have h2 : (push_back N w v x).2 = SV.big w.bufs.length := by rw [hpb]
    have hb : ((push_back N w v x).1).getBuf w.bufs.length =
        ⟨2 * SV.capacity N w v, 1, SV.elems w v ++ [x]⟩ := by
      rw [hpb]
      rw [SV.release_getBuf_ne _ _ (fun i hv => Nat.ne_of_lt (hWF.big_lt i hv))]
      exact World.getBuf_alloc_self _ _ _
    refine ⟨?_, ?_, fun _ => ⟨h2, ?_, ?_⟩, fun hn => absurd hg hn⟩
    · rw [h2]
      simp only [SV.elems]
      rw [hb]
      rfl
    · rw [h2]
      simp only [SV.size, SV.elems]
      rw [hb]
      simp only [Buffer.elems, List.length_append, List.length_cons,
        List.length_nil]
      rfl
    · rw [h2]
      simp only [SV.capacity]
      rw [hb]
      rfl
    · rw [hb]
  · cases v with
    | small xs =>
      have hpb : push_back N w (.small xs) x = (w, .small (xs ++ [x])) := by
        unfold push_back
        rw [if_neg hg]
      refine ⟨?_, ?_, fun h => absurd h hg, fun _ => ⟨?_, ?_⟩⟩ <;>
        rw [hpb] <;>
        simp [SV.elems, SV.size, SV.capacity, SV.is_small]
    | big i =>
      have hi : i < w.bufs.length := hWF.1
      have hpb : push_back N w (.big i) x =
          (w.setElems i ((w.getBuf i).elems ++ [x]), .big i) := by
        unfold push_back
        rw [if_neg hg]
      refine ⟨?_, ?_, fun h => absurd h hg, fun _ => ⟨?_, ?_⟩⟩ <;>
        rw [hpb] <;>
        simp [SV.elems, SV.size, SV.capacity, SV.is_small,
          w.getBuf_setElems_self _ hi]

theorem c3_witness : pushBackClaim 2 (⟨[]⟩ : World Nat) (.small [1, 2]) 9 :=
  c3_push_back_grows_or_appends 2 _ _ 9 (by decide)

/-- C4 counterexample: a heap-backed handle of size 2 whose block (capacity
3) is shared, given `reserve(2)` — so `new_capacity = size`, which the
claim says is a no-op — is converted to the inline representation. -/
theorem c4_counterexample_reserve_at_size :
    (2 : Nat) ≤ SV.size (⟨[⟨3, 2, [0, 1]⟩]⟩ : World Nat) (.big 0) ∧
    (SV.big 0 : SV Nat).is_small = false ∧
    ((reserve 2 (⟨[⟨3, 2, [0, 1]⟩]⟩ : World Nat) (.big 0) 2).2).is_small =
      true := by decide

/-- C4 amended: `reserve(new_capacity)` is a no-op (world and handle both
unchanged) whenever `new_capacity` is strictly below the size, and whenever
the handle is inline with `new_capacity ≤ N`; at `new_capacity = size` a
shared heap-backed handle may instead change representation. -/
theorem c4_amended_reserve_noop (N : Nat) (w : World α) (v : SV α)
    (newCap : Nat)
    (h : newCap < SV.size w v ∨ (v.is_small = true ∧ newCap ≤ N)) :
    reserve N w v newCap = (w, v) := by
  unfold reserve
  rcases h with h | h
  · simp [h]
  · by_cases h2 : newCap < SV.size w v
    · simp [h2]
    · simp [h2, h.1, h.2]

theorem c4_witness :
    reserve 2 (⟨[]⟩ : World Nat) (.small [5]) 1 = (⟨[]⟩, .small [5]) :=
  c4_amended_reserve_noop 2 _ _ 1 (Or.inr ⟨by decide, by decide⟩)

/-- C5 counterexample: `this` inline, `other` heap-backed with one element —
`other.size() = 1` fits inline (`N = 2`) — yet the assignment shares
`other`'s block: the result is heap-backed, not inline as the claim's
deep-copy case requires. -/
theorem c5_counterexample_share_when_fits :
    SV.size (⟨[⟨3, 1, [5]⟩]⟩ : World Nat) (.big 0) ≤ 2 ∧
    ((assign (⟨[⟨3, 1, [5]⟩]⟩ : World Nat) (.small [7]) (.big 0)).2.1).is_small
      = false := by decide

/-- Dropping one of at least two references through `release` after a fresh
allocation leaves the shared block's elements untouched. -/
theorem elems_release_alloc (w : World α) (i cap : Nat) (es : List α)
    (hi : i < w.bufs.length) (h2 : 2 ≤ (w.getBuf i).refs) :
    ((SV.release ((w.alloc cap es).1) (SV.big i)).getBuf i).elems =
      (w.getBuf i).elems := by
  show ((((w.alloc cap es).1).decRef i).getBuf i).elems = _
  have hi2 : i < ((w.alloc cap es).1).bufs.length := by
    rw [World.length_alloc]
    omega
  have hr : 2 ≤ (((w.alloc cap es).1).getBuf i).refs := by
    rw [w.getBuf_alloc_lt _ _ hi]
    exact h2
  rw [World.getBuf_decRef_shared _ hi2 hr, w.getBuf_alloc_lt _ _ hi]

theorem elems_decRef_shared (w : World α) {i : Nat}
    (hi : i < w.bufs.length) (h2 : 2 ≤ (w.getBuf i).refs) :
    ((w.decRef i).getBuf i).elems = (w.getBuf i).elems := by
  rw [w.getBuf_decRef_shared hi h2]

/-- `pop_back` on a shared block, written as allocation plus release. -/
theorem pop_back_shared_eq (N : Nat) (w : World α) (v : SV α)
    (hc : SV.copied w v = true) :
    pop_back N w v =
      (v.release ((w.alloc (SV.capacity N w v)
          ((SV.elems w v).take (SV.size w v - 1))).1),
       .big w.bufs.length, SV.size w v - 1) := by
  unfold pop_back
  rw [if_pos hc]
  simp only [get_copied_storage, World.alloc_idx]

/-- Statement of claim C1 at parameters `N w i x d start range newCap`: a
handle `B = big i` sharing block `i` (reference count at least 2) observes
the same elements — hence the same size — after any mutating operation is
applied through the other sharer `A = big i`: mutable data access
(`check_cow`), `push_back`, `pop_back`, `insert`, `erase`, `clear`,
`reserve` and `shrink_to_fit`. -/
def sharerIsolationClaim (N : Nat) (w : World α) (i : Nat) (x : α)
    (d start range newCap : Nat) : Prop :=
  SV.elems (check_cow N w (.big i)).1 (SV.big i) = SV.elems w (.big i) ∧
  SV.elems (push_back N w (.big i) x).1 (SV.big i) = SV.elems w (.big i) ∧
  SV.elems (pop_back N w (.big i)).1 (SV.big i) = SV.elems w (.big i) ∧
  SV.elems (insert N w (.big i) d x).1 (SV.big i) = SV.elems w (.big i) ∧
  SV.elems (erase N w (.big i) start range).1 (SV.big i) =
    SV.elems w (.big i) ∧
  SV.elems (clear N w (.big i)).1 (SV.big i) = SV.elems w (.big i) ∧
  SV.elems (reserve N w (.big i) newCap).1 (SV.big i) =
    SV.elems w (.big i) ∧
  SV.elems (shrink_to_fit N w (.big i)).1 (SV.big i) = SV.elems w (.big i)

/-- C1: when two handles share one heap block, every mutating operation
applied through one of them leaves the elements stored in that block — and
therefore the other handle's size and element values — unchanged. -/
theorem c1_mutation_isolates_sharers (N : Nat) (w : World α) (i : Nat)
    (x : α) (d start range newCap : Nat) (hi : i < w.bufs.length)
    (h2 : 2 ≤ (w.getBuf i).refs) : sharerIsolationClaim N w i x d start range newCap := by
  have hcop : SV.copied w (.big i) = true := by
    simp [SV.copied]
    omega
  have hrelw : SV.elems (SV.release w (SV.big i)) (SV.big i) =
      SV.elems w (SV.big i) := by
    show ((w.decRef i).getBuf i).elems = _
    exact elems_decRef_shared w hi h2
  refine ⟨?_, ?_, ?_, ?_, ?_, ?_, ?_, ?_⟩
  · -- check_cow (mutable data access)
    unfold check_cow
    rw [if_pos hcop, copy_on_write_eq]
    exact elems_release_alloc w i _ _ hi h2
  · -- push_back
    rw [push_back_grow N w (.big i) x (Or.inr hcop)]
    exact elems_release_alloc w i _ _ hi h2
  · -- pop_back
    rw [pop_back_shared_eq N w (.big i) hcop]
    exact elems_release_alloc w i _ _ hi h2
  · -- insert
    unfold insert
    rw [if_pos (Or.inr hcop)]
    simp only [hcop, if_true]
    split
    · exact hrelw
    · exact elems_release_alloc w i _ _ hi h2
  · -- erase
    unfold erase
    split
    · -- empty range: the early return still calls non-const data(),
      -- whose check_cow clones the shared block
      unfold check_cow
      rw [if_pos hcop, copy_on_write_eq]
      exact elems_release_alloc w i _ _ hi h2
    split
    · exact hrelw
    · exact elems_release_alloc w i _ _ hi h2
  · -- clear
    unfold clear
    split
    next hcl =>
      rcases hcl with hcl | hcl
      · simp [SV.is_small] at hcl
      · have : SV.refs w (SV.big i) = (w.getBuf i).refs := rfl
        omega
    next hcl => exact hrelw
  · -- reserve
    unfold reserve
    split
    · rfl
    split
    · rfl
    split
    next h3 =>
      show ((w.decRef i).getBuf i).elems = _
      exact elems_decRef_shared w hi h2
    split
    next h4 =>
      rw [copy_on_write_eq]
      exact elems_release_alloc w i _ _ hi h2
    · rfl
  · -- shrink_to_fit
    unfold shrink_to_fit
    split
    · rfl
    split
    · show ((w.decRef i).getBuf i).elems = _
      exact elems_decRef_shared w hi h2
    · rw [copy_on_write_eq]
      exact elems_release_alloc w i _ _ hi h2

theorem c1_witness :
    sharerIsolationClaim 2 (⟨[⟨3, 2, [7, 8]⟩]⟩ : World Nat) 0 9 1 0 1 4 :=
  c1_mutation_isolates_sharers 2 _ 0 9 1 0 1 4 (by decide) (by decide)

theorem WF.size_le_cap {N : Nat} {w : World α} {v : SV α} (hWF : WF N w v) :
    SV.size w v ≤ SV.capacity N w v := by
  cases v with
  | small xs => exact hWF
  | big i => exact hWF.2.2.1

theorem WF.N_le_cap {N : Nat} {w : World α} {v : SV α} (hWF : WF N w v) :
    N ≤ SV.capacity N w v := by
  cases v with
  | small xs => exact Nat.le_refl N
  | big i => exact Nat.le_of_lt hWF.2.2.2

/-- A fresh block adopted after releasing the old storage is a well-formed
heap handle whenever it is large enough. -/
theorem WF_release_alloc (N : Nat) (w : World α) (v : SV α) (cap : Nat)
    (es : List α) (hWF : WF N w v) (hlen : es.length ≤ cap) (hN : N < cap) :
    WF N (v.release ((w.alloc cap es).1)) (.big w.bufs.length) := by
  have hb : ((v.release ((w.alloc cap es).1)).getBuf w.bufs.length) =
      ⟨cap, 1, es⟩ := by
    rw [SV.release_getBuf_ne _ _ (fun i hv => Nat.ne_of_lt (hWF.big_lt i hv))]
    exact World.getBuf_alloc_self _ _ _
  refine ⟨?_, ?_, ?_, ?_⟩
  · rw [SV.length_release, World.length_alloc]
    omega
  · rw [hb]
  · rw [hb]
    exact hlen
  · rw [hb]
    exact hN

theorem swapIdx_length (xs : List α) (i j : Nat) :
    (swapIdx xs i j).length = xs.length := by
  unfold swapIdx
  split <;> simp

theorem bubbleLoop_length (d : Nat) (xs : List α) (i : Nat) :
    (bubbleLoop d xs i).length = xs.length := by
  induction i generalizing xs with
  | zero =>
    rw [bubbleLoop]
    simp
  | succ j ih =>
    rw [bubbleLoop]
    split
    · rfl
    · rw [Nat.add_sub_cancel, ih, swapIdx_length]

theorem shiftLoop_length (range stop : Nat) (xs : List α) (i : Nat) :
    (shiftLoop range stop xs i).length = xs.length := by
  have h : ∀ (n : Nat) (xs : List α) (i : Nat), stop - i = n →
      (shiftLoop range stop xs i).length = xs.length := by
    intro n
    induction n with
    | zero =>
      intro xs i hn
      rw [shiftLoop]
      have hsi : stop ≤ i := by omega
      simp [hsi]
    | succ n ih =>
      intro xs i hn
      rw [shiftLoop]
      by_cases hsi : stop ≤ i
      · rw [if_pos hsi]
      · rw [if_neg hsi, ih _ _ (by omega), swapIdx_length]
  exact h _ xs i rfl

theorem dropLastN_small_result (N : Nat) (w : World α) (xs : List α)
    (n : Nat) (h : xs.length ≤ N) :
    WF N (popN N w (.small xs) n).1 (popN N w (.small xs) n).2.1 := by
  rw [popN_small]
  show (dropLastN n xs).length ≤ N
  exact Nat.le_trans (dropLastN_length_le n xs) h

/-- Capacity of any block survives a reference drop. -/
theorem World.getBuf_decRef_cap (w : World α) (i j : Nat) :
    ((w.decRef i).getBuf j).cap = (w.getBuf j).cap := by
  by_cases hij : i = j
  · subst hij
    by_cases hi : i < w.bufs.length
    · unfold World.decRef
      split
      · rw [w.getBuf_free_self hi]
      · rw [w.getBuf_setBuf_self _ hi]
    · have hle : w.bufs.length ≤ i := Nat.le_of_not_lt hi
      unfold World.decRef World.free
      split <;> rw [w.setBuf_oob _ hle]
  · rw [w.getBuf_decRef_ne hij]

/-- The live prefix of any block never grows when a reference is dropped. -/
theorem World.getBuf_decRef_len_le (w : World α) (i j : Nat) :
    ((w.decRef i).getBuf j).elems.length ≤ (w.getBuf j).elems.length := by
  by_cases hij : i = j
  · subst hij
    by_cases hi : i < w.bufs.length
    · unfold World.decRef
      split
      · rw [w.getBuf_free_self hi]
        simp
      · rw [w.getBuf_setBuf_self _ hi]
    · have hle : w.bufs.length ≤ i := Nat.le_of_not_lt hi
      unfold World.decRef World.free
      split <;> rw [w.setBuf_oob _ hle]
  · rw [w.getBuf_decRef_ne hij]

theorem SV.release_getBuf_cap (w : World α) (v : SV α) (j : Nat) :
    ((v.release w).getBuf j).cap = (w.getBuf j).cap := by
  cases v with
  | small xs => rfl
  | big i => exact w.getBuf_decRef_cap i j

theorem SV.release_getBuf_len_le (w : World α) (v : SV α) (j : Nat) :
    ((v.release w).getBuf j).elems.length ≤ (w.getBuf j).elems.length := by
  cases v with
  | small xs => exact Nat.le_refl _
  | big i => exact w.getBuf_decRef_len_le i j

theorem length_take_cons_drop (xs : List α) (x : α) (d : Nat) :
    (xs.take d ++ x :: xs.drop d).length = xs.length + 1 := by
  simp only [List.length_append, List.length_cons, List.length_take,
    List.length_drop]
  omega

theorem WF_check_cow (N : Nat) (w : World α) (v : SV α) (hWF : WF N w v) :
    WF N (check_cow N w v).1 (check_cow N w v).2 := by
  unfold check_cow
  split
  next hc =>
    apply WF_copy_on_write N w v _ hWF hWF.size_le_cap
    cases v with
    | small xs => simp [SV.copied] at hc
    | big i => exact hWF.2.2.2
  next hc => exact hWF

theorem WF_push_back (N : Nat) (w : World α) (v : SV α) (x : α)
    (hN : 0 < N) (hWF : WF N w v) :
    WF N (push_back N w v x).1 (push_back N w v x).2 := by
  by_cases hg : SV.size w v = SV.capacity N w v ∨ SV.copied w v = true
  · rw [push_back_grow N w v x hg]
    have hs := hWF.size_le_cap
    have hNc := hWF.N_le_cap
    have hsz : (SV.elems w v).length = SV.size w v := rfl
    apply WF_release_alloc N w v _ _ hWF
    · simp only [List.length_append, List.length_cons, List.length_nil]
      omega
    · omega
  · cases v with
    | small xs =>
      have hpb : push_back N w (.small xs) x = (w, .small (xs ++ [x])) := by
        unfold push_back
        rw [if_neg hg]
      rw [hpb]
      show (xs ++ [x]).length ≤ N
      have h1 : xs.length ≠ N := fun h => hg (Or.inl h)
      have h2 : xs.length ≤ N := hWF
      simp only [List.length_append, List.length_cons, List.length_nil]
      omega
    | big i =>
      have hi : i < w.bufs.length := hWF.1
      have hpb : push_back N w (.big i) x =
          (w.setElems i ((w.getBuf i).elems ++ [x]), .big i) := by
        unfold push_back
        rw [if_neg hg]
      rw [hpb]
      have hb := w.getBuf_setElems_self ((w.getBuf i).elems ++ [x]) hi
      refine ⟨?_, ?_, ?_, ?_⟩
      · rw [World.length_setElems]
        exact hi
      · rw [hb]
        exact hWF.2.1
      · rw [hb]
        have h1 : (w.getBuf i).elems.length ≠ (w.getBuf i).cap :=
          fun h => hg (Or.inl h)
        have h2 : (w.getBuf i).elems.length ≤ (w.getBuf i).cap := hWF.2.2.1
        simp only [List.length_append, List.length_cons, List.length_nil]
        omega
      · rw [hb]
        exact hWF.2.2.2

theorem WF_pop_back (N : Nat) (w : World α) (v : SV α) (hWF : WF N w v) :
    WF N (pop_back N w v).1 (pop_back N w v).2.1 := by
  by_cases hc : SV.copied w v = true
  · rw [pop_back_shared_eq N w v hc]
    have hs := hWF.size_le_cap
    have hsz : (SV.elems w v).length = SV.size w v := rfl
    apply WF_release_alloc N w v _ _ hWF
    · simp only [List.length_take]
      omega
    · cases v with
      | small xs => simp [SV.copied] at hc
      | big i => exact hWF.2.2.2
  · cases v with
    | small xs =>
      rw [pop_back_small]
      show xs.dropLast.length ≤ N
      have h2 : xs.length ≤ N := hWF
      simp only [List.length_dropLast]
      omega
    | big i =>
      have hi : i < w.bufs.length := hWF.1
      have hr : (w.getBuf i).refs ≤ 1 := by
        by_contra h
        exact hc (by simp only [SV.copied, decide_eq_true_eq]; omega)
      rw [pop_back_big_own N w hr]
      have hb := w.getBuf_setElems_self ((w.getBuf i).elems.dropLast) hi
      refine ⟨?_, ?_, ?_, ?_⟩
      · rw [World.length_setElems]
        exact hi
      · rw [hb]
        exact hWF.2.1
      · rw [hb]
        have h2 : (w.getBuf i).elems.length ≤ (w.getBuf i).cap := hWF.2.2.1
        simp only [List.length_dropLast]
        omega
      · rw [hb]
        exact hWF.2.2.2

theorem WF_insert (N : Nat) (w : World α) (v : SV α) (d : Nat) (x : α)
    (hN : 0 < N) (hWF : WF N w v) :
    WF N (insert N w v d x).1 (insert N w v d x).2 := by
  by_cases hg : SV.size w v = SV.capacity N w v ∨ SV.copied w v = true
  · have hNc := hWF.N_le_cap
    have hNcap : N < (if SV.copied w v = true then SV.capacity N w v + 1
        else 2 * SV.capacity N w v) := by
      split <;> omega
    rw [insert_grow N w v d x hg (Nat.not_le.mpr hNcap)]
    have hs := hWF.size_le_cap
    have hsz : (SV.elems w v).length = SV.size w v := rfl
    apply WF_release_alloc N w v _ _ hWF
    · rw [length_take_cons_drop]
      split
      next hcop =>
        have : SV.size w v ≤ SV.capacity N w v := hs
        omega
      next hcop =>
        rcases hg with hg | hg
        · omega
        · exact absurd hg hcop
    · exact hNcap
  · cases v with
    | small xs =>
      have hpb : push_back N w (.small xs) x = (w, .small (xs ++ [x])) := by
        unfold push_back
        rw [if_neg hg]
      have hin : insert N w (.small xs) d x =
          (w, .small (bubbleLoop d (xs ++ [x]) ((xs ++ [x]).length - 1))) := by
        unfold insert
        rw [if_neg hg, hpb]
      rw [hin]
      show (bubbleLoop d (xs ++ [x]) ((xs ++ [x]).length - 1)).length ≤ N
      rw [bubbleLoop_length]
      have h1 : xs.length ≠ N := fun h => hg (Or.inl h)
      have h2 : xs.length ≤ N := hWF
      simp only [List.length_append, List.length_cons, List.length_nil]
      omega
    | big i =>
      have hi : i < w.bufs.length := hWF.1
      have hpb : push_back N w (.big i) x =
          (w.setElems i ((w.getBuf i).elems ++ [x]), .big i) := by
        unfold push_back
        rw [if_neg hg]
      have hg1 : ((w.setElems i ((w.getBuf i).elems ++ [x])).getBuf i).elems =
          (w.getBuf i).elems ++ [x] := by
        rw [w.getBuf_setElems_self _ hi]
      have hin : insert N w (.big i) d x =
          ((w.setElems i ((w.getBuf i).elems ++ [x])).setElems i
            (bubbleLoop d ((w.getBuf i).elems ++ [x])
              (((w.getBuf i).elems ++ [x]).length - 1)),
           .big i) := by
        unfold insert
        rw [if_neg hg, hpb]
        simp only [hg1]
      rw [hin, w.setElems_setElems _ _ hi]
      have hb := w.getBuf_setElems_self
        (bubbleLoop d ((w.getBuf i).elems ++ [x])
          (((w.getBuf i).elems ++ [x]).length - 1)) hi
      refine ⟨?_, ?_, ?_, ?_⟩
      · rw [World.length_setElems]
        exact hi
      · rw [hb]
        exact hWF.2.1
      · rw [hb, bubbleLoop_length]
        have h1 : (w.getBuf i).elems.length ≠ (w.getBuf i).cap :=
          fun h => hg (Or.inl h)
        have h2 : (w.getBuf i).elems.length ≤ (w.getBuf i).cap := hWF.2.2.1
        simp only [List.length_append, List.length_cons, List.length_nil]
        omega
      · rw [hb]
        exact hWF.2.2.2

theorem WF_popN_big (N : Nat) (w : World α) (i n : Nat)
    (hi : i < w.bufs.length) (hr : (w.getBuf i).refs ≤ 1)
    (h1 : 1 ≤ (w.getBuf i).refs)
    (hlc : (w.getBuf i).elems.length ≤ (w.getBuf i).cap)
    (hNc : N < (w.getBuf i).cap) :
    WF N (popN N w (.big i) n).1 (popN N w (.big i) n).2.1 := by
  rw [popN_big N w hi hr]
  have hb := w.getBuf_setElems_self (dropLastN n (w.getBuf i).elems) hi
  refine ⟨?_, ?_, ?_, ?_⟩
  · rw [World.length_setElems]
    exact hi
  · rw [hb]
    exact h1
  · rw [hb]
    exact Nat.le_trans (dropLastN_length_le _ _) hlc
  · rw [hb]
    exact hNc

theorem WF_erase (N : Nat) (w : World α) (v : SV α) (start range : Nat)
    (hWF : WF N w v) (hsr : start + range ≤ SV.size w v) :
    WF N (erase N w v start range).1 (erase N w v start range).2 := by
  have hsz : (SV.elems w v).length = SV.size w v := rfl
  unfold erase
  split
  next h0 => exact WF_check_cow N w v hWF
  next h0 =>
    split
    next hc =>
      have hcap : N < SV.capacity N w v := by
        cases v with
        | small xs => simp [SV.copied] at hc
        | big i => exact hWF.2.2.2
      have hs := hWF.size_le_cap
      split
      next hsm =>
        show ((SV.elems w v).take start ++
          (SV.elems w v).drop (start + range)).length ≤ N
        simp only [List.length_append, List.length_take, List.length_drop]
        omega
      next hsm =>
        apply WF_release_alloc N w v _ _ hWF
        · simp only [List.length_append, List.length_take, List.length_drop]
          omega
        · omega
    next hc =>
      cases v with
      | small xs =>
        have hle : (shiftLoop range (xs.length - range) xs start).length ≤ N := by
          rw [shiftLoop_length]
          exact hWF
        exact dropLastN_small_result N w _ range hle
      | big i =>
        have hi : i < w.bufs.length := hWF.1
        have hr : (w.getBuf i).refs ≤ 1 := by
          by_contra h
          exact hc (by simp only [SV.copied, decide_eq_true_eq]; omega)
        have hb := w.getBuf_setElems_self
          (shiftLoop range ((w.getBuf i).elems.length - range)
            (w.getBuf i).elems start) hi
        apply WF_popN_big
        · rw [World.length_setElems]
          exact hi
        · rw [hb]
          exact hr
        · rw [hb]
          exact hWF.2.1
        · rw [hb, shiftLoop_length]
          exact hWF.2.2.1
        · rw [hb]
          exact hWF.2.2.2

theorem WF_clear (N : Nat) (w : World α) (v : SV α) (hWF : WF N w v) :
    WF N (clear N w v).1 (clear N w v).2.1 := by
  unfold clear
  split
  next hcl =>
    cases v with
    | small xs => exact dropLastN_small_result N w xs _ hWF
    | big i =>
      have hr : (w.getBuf i).refs = 1 := by
        rcases hcl with h | h
        · exact absurd h (by simp [SV.is_small])
        · exact h
      exact WF_popN_big N w i _ hWF.1 (by omega) (by omega) hWF.2.2.1 hWF.2.2.2
  next hcl =>
    show ([] : List α).length ≤ N
    exact Nat.zero_le N

theorem WF_shrink_to_fit (N : Nat) (w : World α) (v : SV α)
    (hWF : WF N w v) :
    WF N (shrink_to_fit N w v).1 (shrink_to_fit N w v).2 := by
  unfold shrink_to_fit
  split
  next h1 => exact hWF
  next h1 =>
    split
    next h2 =>
      cases v with
      | small xs => exact hWF
      | big i =>
        show (w.getBuf i).elems.length ≤ N
        exact h2
    next h2 =>
      exact WF_copy_on_write N w v _ hWF (Nat.le_refl _) (by omega)

theorem WF_assign (N : Nat) (w : World α) (v other : SV α)
    (hWFo : WF N w other) :
    WF N (assign w v other).1 (assign w v other).2.1 := by
  have hshare : ∀ (u : SV α) (j : Nat), j < w.bufs.length →
      1 ≤ (w.getBuf j).refs →
      (w.getBuf j).elems.length ≤ (w.getBuf j).cap →
      N < (w.getBuf j).cap →
      WF N ((u.release w).incRef j) (.big j) := by
    intro u j hj hrefs hlen hcap
    have hjr : j < (u.release w).bufs.length := by
      rw [SV.length_release]
      exact hj
    have hb := (u.release w).getBuf_incRef_self hjr
    refine ⟨?_, ?_, ?_, ?_⟩
    · rw [World.length_incRef, SV.length_release]
      exact hj
    · rw [hb]
      exact Nat.succ_le_succ (Nat.zero_le _)
    · rw [hb]
      calc ((u.release w).getBuf j).elems.length
          ≤ (w.getBuf j).elems.length := SV.release_getBuf_len_le w u j
        _ ≤ (w.getBuf j).cap := hlen
        _ = ((u.release w).getBuf j).cap := (SV.release_getBuf_cap w u j).symm
    · rw [hb, SV.release_getBuf_cap]
      exact hcap
  cases v with
  | small xs =>
    cases other with
    | small ys => exact hWFo
    | big j => exact hshare _ j hWFo.1 hWFo.2.1 hWFo.2.2.1 hWFo.2.2.2
  | big i =>
    cases other with
    | small ys => exact hWFo
    | big j => exact hshare _ j hWFo.1 hWFo.2.1 hWFo.2.2.1 hWFo.2.2.2

/-- Statement of claim C10 at parameters `N w v other x d start range
newCap`: an inline handle has capacity exactly `N` and a heap handle's
block capacity strictly exceeds `N` (so inline holds exactly when the
capacity equals `N`), and well-formedness — which carries that capacity
invariant — is preserved by every operation of the container. -/
def wfPreservationClaim (N : Nat) (w : World α) (v other : SV α) (x : α)
    (d start range newCap : Nat) : Prop :=
  (v.is_small = true ↔ SV.capacity N w v = N) ∧
  WF N (check_cow N w v).1 (check_cow N w v).2 ∧
  WF N (push_back N w v x).1 (push_back N w v x).2 ∧
  WF N (pop_back N w v).1 (pop_back N w v).2.1 ∧
  WF N (insert N w v d x).1 (insert N w v d x).2 ∧
  (start + range ≤ SV.size w v →
    WF N (erase N w v start range).1 (erase N w v start range).2) ∧
  WF N (clear N w v).1 (clear N w v).2.1 ∧
  WF N (reserve N w v newCap).1 (reserve N w v newCap).2 ∧
  WF N (shrink_to_fit N w v).1 (shrink_to_fit N w v).2 ∧
  (WF N w other → WF N (assign w v other).1 (assign w v other).2.1) ∧
  (WF N w other → WF N (copyCtor w other).1 (copyCtor w other).2.1)

/-- C10: every reachable heap-backed handle keeps a block capacity strictly
greater than `N` — no operation creates or keeps a heap block of capacity
at most `N` — so the inline representation is used exactly when the
capacity equals `N`. -/
theorem c10_heap_capacity_invariant (N : Nat) (w : World α) (v other : SV α)
    (x : α) (d start range newCap : Nat) (hN : 0 < N) (hWF : WF N w v) :
    wfPreservationClaim N w v other x d start range newCap := by
  refine ⟨?_, WF_check_cow N w v hWF, WF_push_back N w v x hN hWF,
    WF_pop_back N w v hWF, WF_insert N w v d x hN hWF,
    fun hsr => WF_erase N w v start range hWF hsr, WF_clear N w v hWF,
    WF_reserve N w v newCap hWF, WF_shrink_to_fit N w v hWF,
    fun ho => WF_assign N w v other ho,
    fun ho => WF_assign N w (.small []) other ho⟩
  cases v with
  | small xs => exact ⟨fun _ => rfl, fun _ => rfl⟩
  | big i =>
    constructor
    · intro h
      exact absurd h (by simp [SV.is_small])
    · intro h
      have h2 : N < (w.getBuf i).cap := hWF.2.2.2
      have h3 : SV.capacity N w (.big i) = (w.getBuf i).cap := rfl
      omega

theorem c10_witness :
    wfPreservationClaim 2 (⟨[⟨3, 1, [4, 5]⟩]⟩ : World Nat) (.big 0)
      (.small [7]) 9 1 0 1 4 :=
  c10_heap_capacity_invariant 2 _ _ _ 9 1 0 1 4 (by decide) (by decide)

/-- Every block index at or past the end of a world reads as dead. -/
theorem unwound_same (w : World α) : ∀ j, w.bufs.length ≤ j →
    (w.getBuf j).refs = 0 ∧ (w.getBuf j).elems = [] := by
  intro j hj
  rw [World.getBuf_oob _ hj]
  exact ⟨rfl, rfl⟩

/-- Allocating one block and freeing it again leaves every fresh index
dead: the failed attempt is fully unwound. -/
theorem unwound_alloc_free (w : World α) (cap : Nat) (es : List α) :
    ∀ j, w.bufs.length ≤ j →
      ((((w.alloc cap es).1).free w.bufs.length).getBuf j).refs = 0 ∧
      ((((w.alloc cap es).1).free w.bufs.length).getBuf j).elems = [] := by
  intro j hj
  by_cases hje : j = w.bufs.length
  · have hlt : w.bufs.length < ((w.alloc cap es).1).bufs.length := by
      rw [World.length_alloc]
      omega
    rw [hje, World.getBuf_free_self _ hlt]
    exact ⟨rfl, rfl⟩
  · have hge : (((w.alloc cap es).1).free w.bufs.length).bufs.length ≤ j := by
      rw [World.length_free, World.length_alloc]
      omega
    rw [World.getBuf_oob _ hge]
    exact ⟨rfl, rfl⟩

/-- Allocating one block and freeing it again does not change any
well-formed handle's elements or capacity. -/
theorem view_alloc_free (N : Nat) (w : World α) (v : SV α) (cap : Nat)
    (es : List α) (hWF : WF N w v) :
    SV.elems (((w.alloc cap es).1).free w.bufs.length) v = SV.elems w v ∧
    SV.capacity N (((w.alloc cap es).1).free w.bufs.length) v =
      SV.capacity N w v := by
  cases v with
  | small xs => exact ⟨rfl, rfl⟩
  | big i =>
    have hi : i < w.bufs.length := hWF.1
    have h : (((w.alloc cap es).1).free w.bufs.length).getBuf i =
        w.getBuf i := by
      rw [World.getBuf_free_ne _ (Ne.symm (Nat.ne_of_lt hi))]
      exact w.getBuf_alloc_lt _ _ hi
    exact ⟨by simp [SV.elems, h], by simp [SV.capacity, h]⟩

/-- Statement of claim C7 at parameters `N w v`: whenever an element copy
throws during `push_back`, `insert` or copy assignment (whatever the number
of the throwing copy), the failure propagates with the handle's elements —
hence size — and capacity unchanged, and every block allocated during the
failed attempt ends fully unwound (no references, no live elements). -/
def strongGuaranteeClaim (N : Nat) (w : World α) (v : SV α) : Prop :=
  (∀ (x : α) (k : Nat), (push_backE N w v x k).2 = none →
    (SV.elems (push_backE N w v x k).1 v = SV.elems w v ∧
     SV.capacity N (push_backE N w v x k).1 v = SV.capacity N w v) ∧
    ∀ j, w.bufs.length ≤ j →
      (((push_backE N w v x k).1).getBuf j).refs = 0 ∧
      (((push_backE N w v x k).1).getBuf j).elems = []) ∧
  (∀ (d : Nat) (x : α) (k : Nat), (insertE N w v d x k).2 = none →
    (SV.elems (insertE N w v d x k).1 v = SV.elems w v ∧
     SV.capacity N (insertE N w v d x k).1 v = SV.capacity N w v) ∧
    ∀ j, w.bufs.length ≤ j →
      (((insertE N w v d x k).1).getBuf j).refs = 0 ∧
      (((insertE N w v d x k).1).getBuf j).elems = []) ∧
  (∀ (other : SV α) (k : Nat), (assignE w k v other).2 = none →
    (SV.elems (assignE w k v other).1 v = SV.elems w v ∧
     SV.capacity N (assignE w k v other).1 v = SV.capacity N w v) ∧
    ∀ j, w.bufs.length ≤ j →
      (((assignE w k v other).1).getBuf j).refs = 0 ∧
      (((assignE w k v other).1).getBuf j).elems = [])

/-- C7: a throwing element copy inside `push_back`, `insert` or copy
assignment propagates out of the operation leaving the receiving handle in
its pre-call state — same elements, size and capacity — and any block
allocated during the failed attempt is destroyed and freed. -/
theorem c7_strong_exception_guarantee (N : Nat) (w : World α) (v : SV α)
    (hWF : WF N w v) : strongGuaranteeClaim N w v := by
  refine ⟨?_, ?_, ?_⟩
  · -- push_back under a copy budget
    intro x k hnone
    by_cases hg : SV.size w v = SV.capacity N w v ∨ SV.copied w v = true
    · by_cases hk : SV.size w v < k
      · by_cases hk2 : 1 < k - SV.size w v
        · exfalso
          unfold push_backE get_copied_storageE copyBudget at hnone
          simp only [if_pos hg, if_pos hk, if_pos hk2] at hnone
          exact Option.noConfusion hnone
        · have he : push_backE N w v x k =
              (((w.alloc (2 * SV.capacity N w v)
                  ((SV.elems w v).take (SV.size w v))).1).free w.bufs.length,
               none) := by
            unfold push_backE get_copied_storageE copyBudget
            simp only [if_pos hg, if_pos hk, if_neg hk2, World.alloc_idx]
          rw [he]
          exact ⟨view_alloc_free N w v _ _ hWF, unwound_alloc_free w _ _⟩
      · have he : push_backE N w v x k =
            (((w.alloc (2 * SV.capacity N w v)
                ((SV.elems w v).take (SV.size w v))).1).free w.bufs.length,
             none) := by
          unfold push_backE get_copied_storageE copyBudget
          simp only [if_pos hg, if_neg hk, World.alloc_idx]
        rw [he]
        exact ⟨view_alloc_free N w v _ _ hWF, unwound_alloc_free w _ _⟩
    · by_cases hk : 1 < k
      · exfalso
        unfold push_backE copyBudget at hnone
        simp only [if_neg hg, if_pos hk] at hnone
        cases v <;> simp at hnone
      · have he : push_backE N w v x k = (w, none) := by
          unfold push_backE copyBudget
          rw [if_neg hg, if_neg hk]
        rw [he]
        exact ⟨⟨rfl, rfl⟩, unwound_same w⟩
  · -- insert under a copy budget
    intro d x k hnone
    by_cases hg : SV.size w v = SV.capacity N w v ∨ SV.copied w v = true
    · by_cases hsm : (if SV.copied w v = true then SV.capacity N w v + 1
          else 2 * SV.capacity N w v) ≤ N
      · by_cases hk : SV.size w v + 1 < k
        · exfalso
          unfold insertE copyBudget at hnone
          simp only [if_pos hg, if_pos hsm, if_pos hk] at hnone
          exact Option.noConfusion hnone
        · have he : insertE N w v d x k = (w, none) := by
            unfold insertE copyBudget
            rw [if_pos hg]
            rw [if_pos hsm, if_neg hk]
          rw [he]
          exact ⟨⟨rfl, rfl⟩, unwound_same w⟩
      · by_cases hk : SV.size w v + 1 < k
        · exfalso
          unfold insertE copyBudget at hnone
          simp only [if_pos hg, if_neg hsm, if_pos hk] at hnone
          exact Option.noConfusion hnone
        · have he : insertE N w v d x k =
              (((w.alloc (if SV.copied w v = true then SV.capacity N w v + 1
                  else 2 * SV.capacity N w v) []).1).free w.bufs.length,
               none) := by
            unfold insertE copyBudget
            simp only [if_pos hg, if_neg hsm, if_neg hk, World.alloc_idx]
          rw [he]
          exact ⟨view_alloc_free N w v _ _ hWF, unwound_alloc_free w _ _⟩
    · by_cases hk : 1 < k
      · exfalso
        unfold insertE copyBudget at hnone
        simp only [if_neg hg, if_pos hk] at hnone
        cases hv : push_back N w v x with
        | mk w2 v2 =>
          rw [hv] at hnone
          cases v2 <;> simp at hnone
      · have he : insertE N w v d x k = (w, none) := by
          unfold insertE copyBudget
          rw [if_neg hg, if_neg hk]
        rw [he]
        exact ⟨⟨rfl, rfl⟩, unwound_same w⟩
  · -- copy assignment under a copy budget
    intro other k hnone
    cases v with
    | small xs =>
      cases other with
      | small ys =>
        by_cases hk : min xs.length ys.length + (ys.length - xs.length) < k
        · exfalso
          unfold assignE copyBudget at hnone
          simp only [if_pos hk] at hnone
          exact Option.noConfusion hnone
        · have he : assignE w k (.small xs) (.small ys) = (w, none) := by
            unfold assignE copyBudget
            simp only [if_neg hk]
          rw [he]
          exact ⟨⟨rfl, rfl⟩, unwound_same w⟩
      | big j => exact absurd hnone (by simp [assignE])
    | big i =>
      cases other with
      | small ys =>
        by_cases hk : ys.length < k
        · exfalso
          unfold assignE copyBudget at hnone
          simp only [if_pos hk] at hnone
          exact Option.noConfusion hnone
        · have he : assignE w k (.big i) (.small ys) = (w, none) := by
            unfold assignE copyBudget
            simp only [if_neg hk]
          rw [he]
          exact ⟨⟨rfl, rfl⟩, unwound_same w⟩
      | big j => exact absurd hnone (by simp [assignE])

theorem c7_witness :
    strongGuaranteeClaim 2 (⟨[]⟩ : World Nat) (.small [1, 2]) ∧
    (push_backE 2 (⟨[]⟩ : World Nat) (.small [1, 2]) 9 1).2 = none ∧
    SV.elems (push_backE 2 (⟨[]⟩ : World Nat) (.small [1, 2]) 9 1).1
        (.small [1, 2]) =
      SV.elems (⟨[]⟩ : World Nat) (.small [1, 2]) :=
  ⟨c7_strong_exception_guarantee 2 _ _ (by decide), by decide,
   ((c7_strong_exception_guarantee 2 (⟨[]⟩ : World Nat) (.small [1, 2])
      (by decide)).1 9 1 (by decide)).1.1⟩

/-- Statement of claim C6 at parameters `N w i xs`: what `clear` does on a
shared heap block, on an exclusively owned heap block, and on an inline
handle. -/
def clearClaim (N : Nat) (w : World α) (i : Nat) (xs : List α) : Prop :=
  (2 ≤ (w.getBuf i).refs →
    clear N w (.big i) = (w.decRef i, .small [], 0) ∧
    (((clear N w (.big i)).1).getBuf i).elems = (w.getBuf i).elems ∧
    SV.size (clear N w (.big i)).1 (clear N w (.big i)).2.1 = 0 ∧
    SV.capacity N (clear N w (.big i)).1 (clear N w (.big i)).2.1 = N ∧
    ((clear N w (.big i)).2.1).is_small = true) ∧
  ((w.getBuf i).refs = 1 →
    clear N w (.big i) = (w.setElems i [], .big i, 0) ∧
    SV.size (clear N w (.big i)).1 (clear N w (.big i)).2.1 = 0 ∧
    SV.capacity N (clear N w (.big i)).1 (clear N w (.big i)).2.1 =
      SV.capacity N w (.big i)) ∧
  clear N w (.small xs) = (w, .small [], 0)

/-- C6: clearing a handle whose heap block is shared performs no element
copies — it releases the reference and resets to the empty inline
representation (size 0, capacity `N`), leaving the block's elements, and so
every other sharer's size and values, unchanged; clearing an inline handle
or an exclusively owned heap block destroys the elements in place, keeping
the block and its capacity (the copy count is 0 on every path). -/
theorem c6_clear_shared_detaches (N : Nat) (w : World α) (i : Nat)
    (xs : List α) (hi : i < w.bufs.length) : clearClaim N w i xs := by
  refine ⟨?_, ?_, ?_⟩
  · intro h2
    have hcond : ¬((SV.big i : SV α).is_small = true ∨
        SV.refs w (SV.big i) = 1) := by
      simp only [SV.is_small, SV.refs, Bool.false_eq_true, false_or]
      omega
    have hc : clear N w (.big i) = (w.decRef i, .small [], 0) := by
      unfold clear
      rw [if_neg hcond]
      rfl
    refine ⟨hc, ?_, ?_, ?_, ?_⟩
    · rw [hc, w.getBuf_decRef_shared hi h2]
    · rw [hc]; rfl
    · rw [hc]; rfl
    · rw [hc]; rfl
  · intro h1
    have hc : clear N w (.big i) = (w.setElems i [], .big i, 0) := by
      have hcl : clear N w (.big i) = popN N w (.big i) (SV.size w (.big i)) := by
        simp [clear, SV.refs, h1]
      rw [hcl, popN_big N w hi (by omega)]
      have hfull : dropLastN (SV.size w (.big i)) (w.getBuf i).elems = [] :=
        dropLastN_full _ _ rfl
      rw [hfull]
    refine ⟨hc, ?_, ?_⟩
    · rw [hc]; simp [SV.size, SV.elems, w.getBuf_setElems_self _ hi]
    · rw [hc]; simp [SV.capacity, w.getBuf_setElems_self _ hi]
  · have hcl : clear N w (.small xs) = popN N w (.small xs) xs.length := by
      simp [clear, SV.is_small, SV.size, SV.elems]
    rw [hcl, popN_small, dropLastN_full _ _ rfl]

theorem c6_witness : clearClaim 2 (⟨[⟨3, 2, [4, 5]⟩]⟩ : World Nat) 0 [9] :=
  c6_clear_shared_detaches 2 _ 0 [9] (by decide)

/-- C5 amended: copy assignment with `this` inline and `other` heap-backed
always releases `this`'s inline elements and takes a shared reference to
`other`'s block, with no element copies, regardless of whether `other`'s
size would fit inline. -/
theorem c5_amended_inline_from_heap_shares (w : World α) (xs : List α)
    (j : Nat) :
    assign w (.small xs) (.big j) = (w.incRef j, .big j, 0) ∧
    SV.elems (w.incRef j) (.big j) = SV.elems w (.big j) := by
  refine ⟨rfl, ?_⟩
  by_cases hj : j < w.bufs.length
  · simp [SV.elems, w.getBuf_incRef_self hj]
  · unfold World.incRef
    rw [w.setBuf_oob _ (Nat.le_of_not_lt hj)]

end Socow
